import Mathlib

/-!
Verification of the `pie_cache` file-backed key-value cache (Go).

The Go source (`cache.go`) is shallowly embedded:

* machine `uint32` arithmetic from `crypto/sha256` becomes `Nat` with
  explicit `% 2 ^ 32`;
* the filesystem becomes an association list from paths (lists of path
  segments) to file contents;
* JSON (de)serialization of `CacheItem` becomes a constructor wrapping:
  Go's `json.Marshal` on this struct cannot fail and `json.Unmarshal`
  recovers the struct exactly (the `Data` field is base64-encoded, hence
  byte-exact), so a file either holds a record or holds bytes that do not
  deserialize (`corrupt`);
* `time.Time` becomes integer ticks; each call of `time.Now()` in the Go
  code becomes one explicit timestamp parameter, in source order.
-/

namespace PieCache

/-! ## SHA-256 (`crypto/sha256`), on `Nat` with explicit `% 2 ^ 32` -/

def rotr32 (n x : Nat) : Nat :=
  ((x >>> n) ||| (x <<< (32 - n))) % 2 ^ 32

def bsig0 (x : Nat) : Nat := rotr32 2 x ^^^ rotr32 13 x ^^^ rotr32 22 x

def bsig1 (x : Nat) : Nat := rotr32 6 x ^^^ rotr32 11 x ^^^ rotr32 25 x

def ssig0 (x : Nat) : Nat := rotr32 7 x ^^^ rotr32 18 x ^^^ (x >>> 3)

def ssig1 (x : Nat) : Nat := rotr32 17 x ^^^ rotr32 19 x ^^^ (x >>> 10)

def chFn (x y z : Nat) : Nat := (x &&& y) ^^^ ((x ^^^ 0xffffffff) &&& z)

def majFn (x y z : Nat) : Nat := (x &&& y) ^^^ (x &&& z) ^^^ (y &&& z)

/-- The 64 SHA-256 round constants (FIPS 180-4 §4.2.2), in decimal. -/
def kConsts : List Nat :=
  [1116352408, 1899447441, 3049323471, 3921009573, 961987163, 1508970993,
   2453635748, 2870763221, 3624381080, 310598401, 607225278, 1426881987,
   1925078388, 2162078206, 2614888103, 3248222580, 3835390401, 4022224774,
   264347078, 604807628, 770255983, 1249150122, 1555081692, 1996064986,
   2554220882, 2821834349, 2952996808, 3210313671, 3336571891, 3584528711,
   113926993, 338241895, 666307205, 773529912, 1294757372, 1396182291,
   1695183700, 1986661051, 2177026350, 2456956037, 2730485921, 2820302411,
   3259730800, 3345764771, 3516065817, 3600352804, 4094571909, 275423344,
   430227734, 506948616, 659060556, 883997877, 958139571, 1322822218,
   1537002063, 1747873779, 1955562222, 2024104815, 2227730452, 2361852424,
   2428436474, 2756734187, 3204031479, 3329325298]

/-- The eight 32-bit working variables of the SHA-256 compression function. -/
structure Hash8 where
  a : Nat
  b : Nat
  c : Nat
  d : Nat
  e : Nat
  f : Nat
  g : Nat
  h : Nat
deriving Repr, DecidableEq

/-- The eight SHA-256 initial hash values (FIPS 180-4 §5.3.3). -/
def initHash : Hash8 :=
  ⟨1779033703, 3144134277, 1013904242, 2773480762,
   1359893119, 2600822924, 528734635, 1541459225⟩

/-- One round of the SHA-256 compression function. -/
def sha256Round (s : Hash8) (kw : Nat × Nat) : Hash8 :=
  let t1 := (s.h + bsig1 s.e + chFn s.e s.f s.g + kw.1 + kw.2) % 2 ^ 32
  let t2 := (bsig0 s.a + majFn s.a s.b s.c) % 2 ^ 32
  ⟨(t1 + t2) % 2 ^ 32, s.a, s.b, s.c, (s.d + t1) % 2 ^ 32, s.e, s.f, s.g⟩

/-- Extend a 16-word block to the 64-word message schedule
(`n` further words to append). -/
def extendSchedule : List Nat → Nat → List Nat
  | w, 0 => w
  | w, n + 1 =>
      let l := w.length
      let x := (ssig1 (w.getD (l - 2) 0) + w.getD (l - 7) 0 +
                ssig0 (w.getD (l - 15) 0) + w.getD (l - 16) 0) % 2 ^ 32
      extendSchedule (w ++ [x]) n

/-- Process one 64-byte block (given as 16 big-endian 32-bit words). -/
def processBlock (s : Hash8) (block : List Nat) : Hash8 :=
  let w := extendSchedule block 48
  let t := (kConsts.zip w).foldl sha256Round s
  ⟨(s.a + t.a) % 2 ^ 32, (s.b + t.b) % 2 ^ 32, (s.c + t.c) % 2 ^ 32,
   (s.d + t.d) % 2 ^ 32, (s.e + t.e) % 2 ^ 32, (s.f + t.f) % 2 ^ 32,
   (s.g + t.g) % 2 ^ 32, (s.h + t.h) % 2 ^ 32⟩

/-- Big-endian 8-byte encoding of `n` (the message bit length). -/
def be64 (n : Nat) : List Nat :=
  [(n >>> 56) % 256, (n >>> 48) % 256, (n >>> 40) % 256, (n >>> 32) % 256,
   (n >>> 24) % 256, (n >>> 16) % 256, (n >>> 8) % 256, n % 256]

/-- SHA-256 padding: `0x80`, zeros to 56 mod 64, then the bit length. -/
def padMessage (msg : List Nat) : List Nat :=
  let z := (120 - (msg.length + 1) % 64) % 64
  msg ++ [0x80] ++ List.replicate z 0 ++ be64 (8 * msg.length)

/-- Group bytes into big-endian 32-bit words. -/
def bytesToWords : List Nat → List Nat
  | a :: b :: c :: d :: rest =>
      (a * 2 ^ 24 + b * 2 ^ 16 + c * 2 ^ 8 + d) :: bytesToWords rest
  | _ => []

/-- Split a word list into blocks of 16 words (structural fuel:
the list shrinks by 16 each step, so `l.length` steps suffice). -/
def splitWordsAux : Nat → List Nat → List (List Nat)
  | 0, _ => []
  | fuel + 1, l =>
      if l.length < 16 then [] else l.take 16 :: splitWordsAux fuel (l.drop 16)

def splitWords (l : List Nat) : List (List Nat) :=
  splitWordsAux l.length l

/-- The eight final state words, in order. -/
def Hash8.words (s : Hash8) : List Nat :=
  [s.a, s.b, s.c, s.d, s.e, s.f, s.g, s.h]

def wordToBytes (w : Nat) : List Nat :=
  [(w >>> 24) % 256, (w >>> 16) % 256, (w >>> 8) % 256, w % 256]

/-- SHA-256 digest (32 bytes) of a byte sequence (`sha256.Sum256`). -/
def sha256Bytes (msg : List Nat) : List Nat :=
  let blocks := splitWords (bytesToWords (padMessage msg))
  let fin := blocks.foldl processBlock initHash
  (fin.words.map wordToBytes).flatten

def hexDigit (n : Nat) : Char :=
  if n < 10 then Char.ofNat (48 + n) else Char.ofNat (87 + n)

/-- Lowercase hexadecimal rendering of a byte list (`hex.EncodeToString`). -/
def bytesToHex (l : List Nat) : List Char :=
  (l.map (fun b => [hexDigit (b / 16), hexDigit (b % 16)])).flatten

/-- Lowercase hex SHA-256 digest of a byte sequence, as characters. -/
def sha256Hex (msg : List Nat) : List Char :=
  bytesToHex (sha256Bytes msg)

/-- UTF-8 encoding of one character (Go `[]byte(string)` semantics). -/
def utf8Char (c : Char) : List Nat :=
  let n := c.toNat
  if n < 0x80 then [n]
  else if n < 0x800 then [0xc0 + n / 64, 0x80 + n % 64]
  else if n < 0x10000 then
    [0xe0 + n / 4096, 0x80 + n / 64 % 64, 0x80 + n % 64]
  else
    [0xf0 + n / 262144, 0x80 + n / 4096 % 64, 0x80 + n / 64 % 64,
     0x80 + n % 64]

/-- UTF-8 byte encoding of a string (Go `[]byte(key)`). -/
def utf8Bytes (s : String) : List Nat :=
  (s.data.map utf8Char).flatten

/-! ## String helpers from the Go standard library -/

/-- Remove every occurrence of `pat`, scanning left to right and
continuing after each removed occurrence (fuel bounds the scan; each
step consumes at least one character, so `s.length` steps suffice). -/
def removeAllAux (pat : List Char) : Nat → List Char → List Char
  | 0, s => s
  | _ + 1, [] => []
  | fuel + 1, c :: rest =>
      if pat.isPrefixOf (c :: rest) then
        removeAllAux pat fuel ((c :: rest).drop pat.length)
      else c :: removeAllAux pat fuel rest

/-- Go `strings.ReplaceAll(s, pat, "")`: non-overlapping left-to-right
removal of every occurrence of `pat` (identity when `pat` is empty,
since inserting the empty replacement changes nothing). -/
def removeAll (pat s : List Char) : List Char :=
  if pat.isEmpty then s else removeAllAux pat s.length s

def infoSuffix : List Char := "_info.json".data

def tocSuffix : List Char := "_toc.json".data

/-- The key normalization performed by both `SetWithTTL` and
`getFilePath`: remove every occurrence of `"_info.json"`, then every
occurrence of `"_toc.json"`, anywhere in the key. -/
def normalizeKey (key : String) : String :=
  String.mk (removeAll tocSuffix (removeAll infoSuffix key.data))

/-- Go `filepath.Ext` restricted to one path element: the suffix
starting at the last dot, empty if there is no dot. -/
def extOf : List Char → List Char
  | [] => []
  | c :: rest =>
      let e := extOf rest
      if e.isEmpty then (if c = '.' then c :: rest else []) else e

/-- Go `strings.TrimSuffix`: drop `suf` once if it is a suffix. -/
def trimSuffix (s suf : List Char) : List Char :=
  if suf.isSuffixOf s then s.take (s.length - suf.length) else s

def splitSlashAux : List Char → List Char → List (List Char)
  | [], acc => [acc.reverse]
  | c :: rest, acc =>
      if c = '/' then acc.reverse :: splitSlashAux rest []
      else splitSlashAux rest (c :: acc)

/-- Split a string into slash-separated components. -/
def splitSlash (s : List Char) : List (List Char) :=
  splitSlashAux s []

/-! ## Cache data model (`cache.go`) -/

/-- `CacheItem`: the persisted record. Timestamps are integer ticks. -/
structure CacheItem where
  key : String
  data : List Nat
  expireAt : Int
  created : Int
deriving Repr, DecidableEq

/-- The error conditions the cache can report, one constructor per
distinct error string in `cache.go`. -/
inductive CacheError where
  | notFound
  | expired
  | parseFailed
  | invalidPrefixLength
deriving Repr, DecidableEq

/-! ## Filesystem model

A path is a list of path segments; the filesystem is an association
list from paths to file contents, newest entry first, kept
duplicate-free by `fsSet`/`fsRemove`. -/

abbrev Path := List String

/-- Contents of one file: either a serialized cache record (Go
`json.Marshal` output, which `json.Unmarshal` recovers exactly), or
bytes that do not deserialize into a record. -/
inductive FileData where
  | record : CacheItem → FileData
  | corrupt : FileData
deriving Repr, DecidableEq

abbrev Fs := List (Path × FileData)

/-- `json.Unmarshal` into a `CacheItem`. -/
def unmarshal : FileData → Option CacheItem
  | .record it => some it
  | .corrupt => none

/-- Read the file at `p` (`ioutil.ReadFile` / `os.Stat`). -/
def fsGet : Fs → Path → Option FileData
  | [], _ => none
  | e :: rest, p => if e.1 = p then some e.2 else fsGet rest p

/-- Delete the file at `p` (`os.Remove`). -/
def fsRemove : Fs → Path → Fs
  | [], _ => []
  | e :: rest, p => if e.1 = p then fsRemove rest p else e :: fsRemove rest p

/-- Create or overwrite the file at `p` (`ioutil.WriteFile`). -/
def fsSet (fs : Fs) (p : Path) (d : FileData) : Fs :=
  (p, d) :: fsRemove fs p

/-- Go `filepath.Join(p, seg)` for one already-split component of the
appended name, with `filepath.Clean` semantics for the relative
components `""`, `"."` and `".."`. -/
def joinSeg (p : Path) (seg : List Char) : Path :=
  if seg.isEmpty ∨ seg = ['.'] then p
  else if seg = ['.', '.'] then p.dropLast
  else p ++ [String.mk seg]

/-- Go `filepath.Join(p, key)`: split the appended name on slashes and
fold the components onto the path. -/
def joinKey (p : Path) (key : String) : Path :=
  (splitSlash key.data).foldl joinSeg p

/-! ## The cache and its operations -/

/-- `FileCache`: configuration, immutable after construction. -/
structure FileCache where
  baseDir : Path
  ttl : Int
  dirLevels : Nat
  prefixLen : Nat
  purgeOnLoad : Bool
deriving Repr, DecidableEq

/-- `NewFileCache`: `dirLevels = 3`, `prefixLen = 2`,
`purgeOnLoad = true` (base directory creation is modelled as the
reliable storage substrate). -/
def NewFileCache (baseDir : Path) (ttl : Int) : FileCache :=
  ⟨baseDir, ttl, 3, 2, true⟩

/-- The shard loop of `getFilePath`: for `i` in `0 ..< dirLevels`,
take `hashStr[i*prefixLen : (i+1)*prefixLen]` as one directory name,
failing if the slice end exceeds the digest length. `n` counts the
remaining iterations. -/
def shardLoop (hashStr : List Char) (prefixLen : Nat) :
    Nat → Nat → Path → Except CacheError Path
  | _, 0, path => .ok path
  | i, n + 1, path =>
      let start := i * prefixLen
      let stop := start + prefixLen
      if stop > hashStr.length then .error .invalidPrefixLength
      else
        shardLoop hashStr prefixLen (i + 1) n
          (path ++ [String.mk ((hashStr.drop start).take prefixLen)])

/-- `getFilePath`: normalize the key, hash it, derive the shard
directories, then join the original key as the file name. -/
def getFilePath (fc : FileCache) (key : String) : Except CacheError Path :=
  let hasKey := normalizeKey key
  let hashStr := sha256Hex (utf8Bytes hasKey)
  match shardLoop hashStr fc.prefixLen 0 fc.dirLevels fc.baseDir with
  | .error e => .error e
  | .ok path => .ok (joinKey path key)

/-- `SetWithTTL`. The Go code reads the clock twice: `now1` is the
`time.Now()` used for `expireAt` (line 57), `now2` the `time.Now()`
stored in `Created` (line 66); a real clock gives `now1 ≤ now2`.
Directory creation, marshalling and the file write are modelled as the
reliable substrate (for this struct `json.Marshal` cannot fail). -/
def SetWithTTL (fc : FileCache) (now1 now2 : Int) (key : String)
    (data : List Nat) (ttl : Int) (fs : Fs) : Except CacheError Fs :=
  let expireAt := now1 + ttl
  let hasKey := normalizeKey key
  let item : CacheItem := ⟨hasKey, data, expireAt, now2⟩
  match getFilePath fc key with
  | .error e => .error e
  | .ok filePath => .ok (fsSet fs filePath (.record item))

/-- `Set`: `SetWithTTL` with the default TTL. -/
def Set (fc : FileCache) (now1 now2 : Int) (key : String)
    (data : List Nat) (fs : Fs) : Except CacheError Fs :=
  SetWithTTL fc now1 now2 key data fc.ttl fs

/-- `Get`: returns the payload or an error, together with the
filesystem after the call (purge-on-read may delete the file).
`time.Now().After(e)` is the strict comparison `e < now`. -/
def Get (fc : FileCache) (now : Int) (key : String) (fs : Fs) :
    Except CacheError (List Nat) × Fs :=
  match getFilePath fc key with
  | .error e => (.error e, fs)
  | .ok filePath =>
    match fsGet fs filePath with
    | none => (.error .notFound, fs)
    | some fd =>
      match unmarshal fd with
      | none => (.error .parseFailed, fs)
      | some item =>
        if item.expireAt < now then
          (.error .expired, if fc.purgeOnLoad then fsRemove fs filePath else fs)
        else (.ok item.data, fs)

/-- `Exists`: boolean, no error channel. -/
def Exists (fc : FileCache) (now : Int) (key : String) (fs : Fs) :
    Bool × Fs :=
  match getFilePath fc key with
  | .error _ => (false, fs)
  | .ok filePath =>
    match fsGet fs filePath with
    | none => (false, fs)
    | some _ =>
      if fc.purgeOnLoad then
        match Get fc now key fs with
        | (.error _, fs2) => (false, fs2)
        | (.ok _, fs2) => (true, fs2)
      else (true, fs)

/-- `Delete`: remove the file unconditionally; `NotFound` if absent. -/
def Delete (fc : FileCache) (key : String) (fs : Fs) :
    Except CacheError Unit × Fs :=
  match getFilePath fc key with
  | .error e => (.error e, fs)
  | .ok filePath =>
    match fsGet fs filePath with
    | none => (.error .notFound, fs)
    | some _ => (.ok (), fsRemove fs filePath)

def jsonExt : List Char := ".json".data

/-- The file-name segment of a path. -/
def lastSeg (p : Path) : List Char := (p.getLastD "").data

/-- Whether the walk of `PurgeExpired` keeps the file: files outside
the base directory are not visited; files whose name does not have the
`.json` extension are skipped; otherwise unreadable or undeserializable
files and expired records are removed. -/
def purgeKeep (fc : FileCache) (now : Int) (e : Path × FileData) : Bool :=
  if ¬ fc.baseDir.isPrefixOf e.1 then true
  else if extOf (lastSeg e.1) = jsonExt then
    match unmarshal e.2 with
    | none => false
    | some item => if item.expireAt < now then false else true
  else true

/-- `PurgeExpired`: walk the tree and delete per `purgeKeep`. -/
def PurgeExpired (fc : FileCache) (now : Int) (fs : Fs) : Fs :=
  fs.filter (purgeKeep fc now)

/-- The key `ListKeys` yields for one walked file, if any: only files
under the base directory with the `.json` extension and at least
`dirLevels + 1` segments below the root contribute; the yielded key is
segment number `dirLevels` of the relative path with a `.json` suffix
trimmed. -/
def listKeyOf (fc : FileCache) (e : Path × FileData) : Option String :=
  if ¬ fc.baseDir.isPrefixOf e.1 then none
  else if extOf (lastSeg e.1) = jsonExt then
    let parts := e.1.drop fc.baseDir.length
    if parts.length < fc.dirLevels + 1 then none
    else some (String.mk (trimSuffix (parts.getD fc.dirLevels "").data jsonExt))
  else none

/-- `ListKeys`: accumulate `listKeyOf` over the walk. -/
def ListKeys (fc : FileCache) (fs : Fs) : List String :=
  fs.filterMap (listKeyOf fc)

/-! ## Derived observables used to state the claims -/

/-- The file stored for `key`, resolving the path as the cache does. -/
def storedAt (fc : FileCache) (fs : Fs) (key : String) : Option FileData :=
  match getFilePath fc key with
  | .ok p => fsGet fs p
  | .error _ => none

/-- The record stored for `key`, if the stored file deserializes. -/
def storedItem (fc : FileCache) (fs : Fs) (key : String) : Option CacheItem :=
  match storedAt fc fs key with
  | some (.record it) => some it
  | _ => none

/-- The resolved path of `key` (defaulting to `[]` on failure). -/
def pathOfKey (fc : FileCache) (key : String) : Path :=
  match getFilePath fc key with
  | .ok p => p
  | .error _ => []

/-- A key that is a single ordinary file name: no slash, nonempty, and
not a relative-path component. -/
def isPlainName (k : String) : Bool :=
  !(k.data.contains '/') && !(k.data.isEmpty) && k != "." && k != ".."

/-- Whether the key itself carries the `.json` extension. -/
def keyJsonExt (k : String) : Bool := extOf k.data == jsonExt

/-- The shard directory names, as `getFilePath` computes them: chunk
`i` is `hashStr[i*pl : i*pl+pl]`, for `n` consecutive chunks. -/
def shardChunks (hashStr : List Char) (pl : Nat) : Nat → Nat → Path
  | _, 0 => []
  | i, n + 1 =>
      String.mk ((hashStr.drop (i * pl)).take pl) ::
        shardChunks hashStr pl (i + 1) n

/-! ## Helper lemmas -/

theorem length_bytesToHex (l : List Nat) :
    (bytesToHex l).length = 2 * l.length := by
  induction l with
  | nil => rfl
  | cons b rest ih =>
      simp [bytesToHex] at *
      omega

theorem length_sha256Bytes (msg : List Nat) :
    (sha256Bytes msg).length = 32 := by
  simp [sha256Bytes, Hash8.words, wordToBytes]

theorem length_sha256Hex (msg : List Nat) :
    (sha256Hex msg).length = 64 := by
  simp [sha256Hex, length_bytesToHex, length_sha256Bytes]

theorem length_shardChunks (hashStr : List Char) (pl : Nat) :
    ∀ n i, (shardChunks hashStr pl i n).length = n := by
  intro n
  induction n with
  | zero => intro i; rfl
  | succ n ih => intro i; simp [shardChunks, ih]

theorem shardLoop_ok (hashStr : List Char) (pl : Nat) :
    ∀ n i path, (i + n) * pl ≤ hashStr.length →
      shardLoop hashStr pl i n path =
        .ok (path ++ shardChunks hashStr pl i n) := by
  intro n
  induction n with
  | zero => intro i path _; simp [shardLoop, shardChunks]
  | succ n ih =>
      intro i path h
      have hstep : i * pl + pl ≤ hashStr.length := by
        calc i * pl + pl = (i + 1) * pl := by ring
        _ ≤ (i + (n + 1)) * pl := Nat.mul_le_mul_right pl (by omega)
        _ ≤ hashStr.length := h
      have hi : ((i + 1) + n) * pl ≤ hashStr.length := by
        calc ((i + 1) + n) * pl = (i + (n + 1)) * pl := by ring
        _ ≤ hashStr.length := h
      simp only [shardLoop, shardChunks]
      rw [if_neg (by omega), ih (i + 1) _ hi]
      simp

theorem shardLoop_err (hashStr : List Char) (pl : Nat) :
    ∀ n i path, 0 < n → hashStr.length < (i + n) * pl →
      shardLoop hashStr pl i n path = .error .invalidPrefixLength := by
  intro n
  induction n with
  | zero => omega
  | succ n ih =>
      intro i path _ h
      simp only [shardLoop]
      by_cases hc : i * pl + pl > hashStr.length
      · rw [if_pos hc]
      · rw [if_neg hc]
        have hn : 0 < n := by
          rcases Nat.eq_zero_or_pos n with h0 | h0
          · subst h0
            have : (i + (0 + 1)) * pl = i * pl + pl := by ring
            omega
          · exact h0
        exact ih (i + 1) _ hn (by
          have : ((i + 1) + n) * pl = (i + (n + 1)) * pl := by ring
          omega)

theorem string_mk_data (s : String) : String.mk s.data = s := by
  cases s; rfl

theorem data_eq_of_eq {s t : String} (h : s = t) : s.data = t.data := by
  rw [h]

theorem eq_of_data_eq {s t : String} (h : s.data = t.data) : s = t := by
  rw [← string_mk_data s, ← string_mk_data t, h]

theorem splitSlashAux_no_slash (cs : List Char) :
    ∀ acc, '/' ∉ cs → splitSlashAux cs acc = [acc.reverse ++ cs] := by
  induction cs with
  | nil => intro acc _; simp [splitSlashAux]
  | cons c rest ih =>
      intro acc h
      have hc : ¬ c = '/' := fun hc => h (by simp [hc])
      have hr : '/' ∉ rest := fun hr => h (by simp [hr])
      simp only [splitSlashAux, if_neg hc]
      rw [ih _ hr]
      simp

/-- A plain file name joins as exactly one new final segment. -/
theorem joinKey_plain (p : Path) (k : String) (h : isPlainName k = true) :
    joinKey p k = p ++ [k] := by
  simp only [isPlainName, Bool.and_eq_true, bne_iff_ne,
    Bool.not_eq_true'] at h
  obtain ⟨⟨⟨hslash, hempty⟩, hdot⟩, hdots⟩ := h
  have hns : '/' ∉ k.data := by simpa using hslash
  unfold joinKey splitSlash
  rw [splitSlashAux_no_slash _ _ hns]
  simp only [List.reverse_nil, List.nil_append, List.foldl_cons,
    List.foldl_nil]
  unfold joinSeg
  have h1 : ¬ k.data.isEmpty = true := by simp [hempty]
  have h2 : ¬ k.data = ['.'] := fun hd =>
    hdot (eq_of_data_eq (by simpa using hd))
  have h3 : ¬ k.data = ['.', '.'] := fun hd =>
    hdots (eq_of_data_eq (by simpa using hd))
  rw [if_neg (by simp [hempty, h2]), if_neg h3, string_mk_data]

theorem joinKey_empty (p : Path) : joinKey p "" = p := rfl

theorem fsGet_fsSet_same (fs : Fs) (p : Path) (d : FileData) :
    fsGet (fsSet fs p d) p = some d := by
  simp [fsSet, fsGet]

theorem fsGet_fsRemove (fs : Fs) (p q : Path) (h : p ≠ q) :
    fsGet (fsRemove fs p) q = fsGet fs q := by
  induction fs with
  | nil => rfl
  | cons e rest ih =>
      by_cases he : e.1 = p
      · rw [fsRemove, if_pos he, ih, fsGet, if_neg (he ▸ h)]
      · rw [fsRemove, if_neg he]
        by_cases hq : e.1 = q
        · rw [fsGet, if_pos hq, fsGet, if_pos hq]
        · rw [fsGet, if_neg hq, fsGet, if_neg hq, ih]

theorem fsGet_fsRemove_same (fs : Fs) (p : Path) :
    fsGet (fsRemove fs p) p = none := by
  induction fs with
  | nil => rfl
  | cons e rest ih =>
      by_cases he : e.1 = p
      · rw [fsRemove, if_pos he]; exact ih
      · rw [fsRemove, if_neg he, fsGet, if_neg he]; exact ih

theorem fsGet_fsSet_other (fs : Fs) (p q : Path) (d : FileData)
    (h : p ≠ q) : fsGet (fsSet fs p d) q = fsGet fs q := by
  rw [fsSet, fsGet, if_neg h, fsGet_fsRemove _ _ _ h]

/-- With the constructor's parameters the shard loop always succeeds:
three two-character chunks need 6 of the 64 digest characters. -/
theorem getFilePath_eq (b : Path) (t : Int) (key : String) :
    getFilePath (NewFileCache b t) key =
      .ok (joinKey
        (b ++ shardChunks (sha256Hex (utf8Bytes (normalizeKey key))) 2 0 3)
        key) := by
  simp only [getFilePath, NewFileCache]
  rw [shardLoop_ok _ _ 3 0 b (by simp [length_sha256Hex])]

theorem pathOfKey_eq (b : Path) (t : Int) (key : String) :
    pathOfKey (NewFileCache b t) key =
      joinKey
        (b ++ shardChunks (sha256Hex (utf8Bytes (normalizeKey key))) 2 0 3)
        key := by
  rw [pathOfKey, getFilePath_eq]

theorem getFilePath_ok (b : Path) (t : Int) (key : String) :
    getFilePath (NewFileCache b t) key =
      .ok (pathOfKey (NewFileCache b t) key) := by
  rw [getFilePath_eq, pathOfKey_eq]

/-- For a plain key the resolved path is the three shard directories
followed by the key itself as file name. -/
theorem pathOfKey_plain (b : Path) (t : Int) (key : String)
    (h : isPlainName key = true) :
    pathOfKey (NewFileCache b t) key =
      (b ++ shardChunks (sha256Hex (utf8Bytes (normalizeKey key))) 2 0 3)
        ++ [key] := by
  rw [pathOfKey_eq, joinKey_plain _ _ h]

theorem pathOfKey_last_plain (b : Path) (t : Int) (key : String)
    (h : isPlainName key = true) :
    (pathOfKey (NewFileCache b t) key).getLast? = some key := by
  rw [pathOfKey_plain _ _ _ h, List.getLast?_concat]

theorem length_pathOfKey_plain (b : Path) (t : Int) (key : String)
    (h : isPlainName key = true) :
    (pathOfKey (NewFileCache b t) key).length = b.length + 4 := by
  rw [pathOfKey_plain _ _ _ h]
  simp [length_shardChunks]

theorem pathOfKey_of_empty (b : Path) (t : Int) (key : String)
    (h : key.data = []) :
    pathOfKey (NewFileCache b t) key =
      b ++ shardChunks (sha256Hex (utf8Bytes (normalizeKey key))) 2 0 3 := by
  have hk : key = "" := eq_of_data_eq (by simpa using h)
  subst hk
  rw [pathOfKey_eq, joinKey_empty]

theorem length_pathOfKey_of_empty (b : Path) (t : Int) (key : String)
    (h : key.data = []) :
    (pathOfKey (NewFileCache b t) key).length = b.length + 3 := by
  rw [pathOfKey_of_empty _ _ _ h]
  simp [length_shardChunks]

/-- A separator-free key other than `"."` and `".."` is either empty
or a plain file name. -/
theorem empty_or_plain (k : String) (hs : ¬ k.data.contains '/' = true)
    (h1 : k ≠ ".") (h2 : k ≠ "..") :
    k.data = [] ∨ isPlainName k = true := by
  by_cases he : k.data = []
  · exact Or.inl he
  · refine Or.inr ?_
    simp only [isPlainName, Bool.and_eq_true, bne_iff_ne, Bool.not_eq_true']
    refine ⟨⟨⟨?_, ?_⟩, h1⟩, h2⟩
    · cases hb : k.data.contains '/' with
      | false => rfl
      | true => exact absurd hb hs
    · cases hb : k.data.isEmpty with
      | false => rfl
      | true => exact absurd (by simpa using hb) he

/-- Distinct separator-free non-dot keys resolve to distinct paths:
the file name is the key itself, so the last segments differ (or the
lengths differ when one key is empty). -/
theorem pathOfKey_injective (b : Path) (t : Int) (k1 k2 : String)
    (hne : k1 ≠ k2)
    (h1s : ¬ k1.data.contains '/' = true) (h2s : ¬ k2.data.contains '/' = true)
    (h1a : k1 ≠ ".") (h1b : k1 ≠ "..") (h2a : k2 ≠ ".") (h2b : k2 ≠ "..") :
    pathOfKey (NewFileCache b t) k1 ≠ pathOfKey (NewFileCache b t) k2 := by
  intro heq
  rcases empty_or_plain k1 h1s h1a h1b with he1 | hp1
  · rcases empty_or_plain k2 h2s h2a h2b with he2 | hp2
    · exact hne (eq_of_data_eq (he1.trans he2.symm))
    · have := congrArg List.length heq
      rw [length_pathOfKey_of_empty _ _ _ he1,
        length_pathOfKey_plain _ _ _ hp2] at this
      omega
  · rcases empty_or_plain k2 h2s h2a h2b with he2 | hp2
    · have := congrArg List.length heq
      rw [length_pathOfKey_plain _ _ _ hp1,
        length_pathOfKey_of_empty _ _ _ he2] at this
      omega
    · have := congrArg List.getLast? heq
      rw [pathOfKey_last_plain _ _ _ hp1, pathOfKey_last_plain _ _ _ hp2]
        at this
      exact hne (by simpa using this)

/-! ### Case lemmas for `Get`, shared by several claims -/

theorem purgeOnLoad_new (b : Path) (t : Int) :
    (NewFileCache b t).purgeOnLoad = true := rfl

theorem baseDir_new (b : Path) (t : Int) :
    (NewFileCache b t).baseDir = b := rfl

theorem dirLevels_new (b : Path) (t : Int) :
    (NewFileCache b t).dirLevels = 3 := rfl

theorem Get_notFound (b : Path) (t now : Int) (key : String) (fs : Fs)
    (h : storedAt (NewFileCache b t) fs key = none) :
    Get (NewFileCache b t) now key fs = (.error .notFound, fs) := by
  simp only [storedAt, getFilePath_ok] at h
  simp [Get, getFilePath_ok, h]

theorem Get_corrupt (b : Path) (t now : Int) (key : String) (fs : Fs)
    (h : storedAt (NewFileCache b t) fs key = some .corrupt) :
    Get (NewFileCache b t) now key fs = (.error .parseFailed, fs) := by
  simp only [storedAt, getFilePath_ok] at h
  simp [Get, getFilePath_ok, h, unmarshal]

theorem Get_expired (b : Path) (t now : Int) (key : String) (fs : Fs)
    (it : CacheItem)
    (h : storedAt (NewFileCache b t) fs key = some (.record it))
    (hx : it.expireAt < now) :
    Get (NewFileCache b t) now key fs =
      (.error .expired, fsRemove fs (pathOfKey (NewFileCache b t) key)) := by
  simp only [storedAt, getFilePath_ok] at h
  simp [Get, getFilePath_ok, h, unmarshal, hx, purgeOnLoad_new]

theorem Get_live (b : Path) (t now : Int) (key : String) (fs : Fs)
    (it : CacheItem)
    (h : storedAt (NewFileCache b t) fs key = some (.record it))
    (hx : ¬ it.expireAt < now) :
    Get (NewFileCache b t) now key fs = (.ok it.data, fs) := by
  simp only [storedAt, getFilePath_ok] at h
  simp [Get, getFilePath_ok, h, unmarshal, hx]

theorem SetWithTTL_ok (b : Path) (t n1 n2 : Int) (key : String)
    (data : List Nat) (ttl : Int) (fs : Fs) :
    SetWithTTL (NewFileCache b t) n1 n2 key data ttl fs =
      .ok (fsSet fs (pathOfKey (NewFileCache b t) key)
        (.record ⟨normalizeKey key, data, n1 + ttl, n2⟩)) := by
  rw [SetWithTTL, getFilePath_ok]

theorem storedAt_fsSet_same (b : Path) (t : Int) (key : String) (fs : Fs)
    (d : FileData) :
    storedAt (NewFileCache b t)
      (fsSet fs (pathOfKey (NewFileCache b t) key) d) key = some d := by
  simp [storedAt, getFilePath_ok, fsGet_fsSet_same]

theorem storedItem_eq (fc : FileCache) (fs : Fs) (key : String)
    (it : CacheItem) :
    storedItem fc fs key = some it ↔
      storedAt fc fs key = some (.record it) := by
  rw [storedItem]
  rcases h : storedAt fc fs key with _ | fd
  · simp
  · rcases fd with it2 | _ <;> simp

/-! ### Filter lemmas for `PurgeExpired` -/

/-- Paths are unique in a filesystem (true of a real directory tree,
and preserved by `fsSet` / `fsRemove`). -/
def pathsNodup (fs : Fs) : Prop := (fs.map Prod.fst).Nodup

theorem fsGet_filter_keep (keep : Path × FileData → Bool) (fs : Fs)
    (p : Path) (d : FileData) (h : fsGet fs p = some d)
    (hk : keep (p, d) = true) :
    fsGet (fs.filter keep) p = some d := by
  induction fs with
  | nil => simp [fsGet] at h
  | cons e rest ih =>
      by_cases he : e.1 = p
      · simp only [fsGet, if_pos he] at h
        obtain ⟨p2, d2⟩ := e
        obtain rfl : p2 = p := he
        obtain rfl : d2 = d := by simpa using h
        rw [List.filter_cons, if_pos hk]
        simp [fsGet]
      · simp only [fsGet, if_neg he] at h
        rw [List.filter_cons]
        split
        · simp only [fsGet, if_neg he]; exact ih h
        · exact ih h

theorem fsGet_none_of_not_mem (fs : Fs) (p : Path)
    (h : p ∉ fs.map Prod.fst) : fsGet fs p = none := by
  induction fs with
  | nil => rfl
  | cons e rest ih =>
      simp only [List.map_cons, List.mem_cons] at h
      push_neg at h
      have hne : ¬ e.1 = p := fun he => h.1 he.symm
      simp only [fsGet, if_neg hne]
      exact ih h.2

theorem fsGet_filter_drop (keep : Path × FileData → Bool) (fs : Fs)
    (p : Path) (d : FileData) (hnd : pathsNodup fs)
    (h : fsGet fs p = some d) (hk : keep (p, d) = false) :
    fsGet (fs.filter keep) p = none := by
  induction fs with
  | nil => simp [fsGet] at h
  | cons e rest ih =>
      rw [pathsNodup, List.map_cons, List.nodup_cons] at hnd
      by_cases he : e.1 = p
      · simp only [fsGet, if_pos he] at h
        obtain ⟨p2, d2⟩ := e
        obtain rfl : p2 = p := he
        obtain rfl : d2 = d := by simpa using h
        rw [List.filter_cons, if_neg (by simp [hk])]
        refine fsGet_none_of_not_mem _ _ ?_
        intro hmem
        apply hnd.1
        obtain ⟨e2, he2, hfst⟩ := List.mem_map.mp hmem
        exact List.mem_map.mpr ⟨e2, List.mem_of_mem_filter he2, hfst⟩
      · simp only [fsGet, if_neg he] at h
        rw [List.filter_cons]
        split
        · simp only [fsGet, if_neg he]; exact ih hnd.2 h
        · exact ih hnd.2 h

/-! ### Walk-entry lemmas for `PurgeExpired` and `ListKeys` -/

/-- Whether an `Except` result is a success. -/
def isOkRes {α : Type} : Except CacheError α → Bool
  | .ok _ => true
  | .error _ => false

theorem lastSeg_concat (xs : Path) (k : String) :
    lastSeg (xs ++ [k]) = k.data := by
  rw [lastSeg, List.getLastD_concat]

theorem baseDir_isPrefixOf (b r : Path) :
    b.isPrefixOf (b ++ r) = true := by
  simp

theorem getD_concat (l : List String) (k : String) :
    (l ++ [k]).getD l.length "" = k := by
  rw [List.getD_eq_getElem?_getD, List.getElem?_append_right (Nat.le_refl _)]
  simp

/-- A walked file named by a plain key without the `.json` extension is
always kept by the purge sweep. -/
theorem purgeKeep_plain_notJson (b : Path) (t now : Int) (key : String)
    (d : FileData) (h : isPlainName key = true)
    (hj : ¬ extOf key.data = jsonExt) :
    purgeKeep (NewFileCache b t) now
      (pathOfKey (NewFileCache b t) key, d) = true := by
  rw [purgeKeep, pathOfKey_plain _ _ _ h]
  rw [if_neg (by simp [baseDir_new, List.append_assoc]), lastSeg_concat,
    if_neg hj]

/-- A walked record file named by a plain `.json` key is kept exactly
when the record is not expired. -/
theorem purgeKeep_plain_record (b : Path) (t now : Int) (key : String)
    (it : CacheItem) (h : isPlainName key = true)
    (hj : extOf key.data = jsonExt) :
    purgeKeep (NewFileCache b t) now
      (pathOfKey (NewFileCache b t) key, .record it) =
      (if it.expireAt < now then false else true) := by
  rw [purgeKeep, pathOfKey_plain _ _ _ h]
  rw [if_neg (by simp [baseDir_new, List.append_assoc]), lastSeg_concat,
    if_pos hj]
  rfl

theorem storedAt_purge_keep (b : Path) (t now : Int) (key : String)
    (fs : Fs) (d : FileData)
    (h : storedAt (NewFileCache b t) fs key = some d)
    (hk : purgeKeep (NewFileCache b t) now
      (pathOfKey (NewFileCache b t) key, d) = true) :
    storedAt (NewFileCache b t) (PurgeExpired (NewFileCache b t) now fs)
      key = some d := by
  simp only [storedAt, getFilePath_ok] at *
  exact fsGet_filter_keep _ _ _ _ h hk

theorem storedAt_purge_drop (b : Path) (t now : Int) (key : String)
    (fs : Fs) (d : FileData) (hnd : pathsNodup fs)
    (h : storedAt (NewFileCache b t) fs key = some d)
    (hk : purgeKeep (NewFileCache b t) now
      (pathOfKey (NewFileCache b t) key, d) = false) :
    storedAt (NewFileCache b t) (PurgeExpired (NewFileCache b t) now fs)
      key = none := by
  simp only [storedAt, getFilePath_ok] at *
  exact fsGet_filter_drop _ _ _ _ hnd h hk

/-- What `ListKeys` yields for a walked file named by a plain key:
the key with a `.json` suffix trimmed when it has the `.json`
extension, nothing otherwise. -/
theorem listKeyOf_plain (b : Path) (t : Int) (key : String) (d : FileData)
    (h : isPlainName key = true) :
    listKeyOf (NewFileCache b t) (pathOfKey (NewFileCache b t) key, d) =
      if extOf key.data = jsonExt then
        some (String.mk (trimSuffix key.data jsonExt))
      else none := by
  rw [listKeyOf, pathOfKey_plain _ _ _ h]
  rw [if_neg (by simp [baseDir_new, List.append_assoc])]
  by_cases hj : extOf (lastSeg
      ((b ++ shardChunks (sha256Hex (utf8Bytes (normalizeKey key))) 2 0 3)
        ++ [key])) = jsonExt
  · rw [if_pos hj]
    rw [lastSeg_concat] at hj
    rw [if_pos hj]
    have hdrop :
        ((b ++ shardChunks (sha256Hex (utf8Bytes (normalizeKey key))) 2 0 3)
          ++ [key]).drop (NewFileCache b t).baseDir.length =
          shardChunks (sha256Hex (utf8Bytes (normalizeKey key))) 2 0 3
            ++ [key] := by
      rw [List.append_assoc]
      exact List.drop_left _ _
    rw [hdrop]
    have hlen : (shardChunks (sha256Hex (utf8Bytes (normalizeKey key)))
        2 0 3).length = 3 := length_shardChunks _ _ _ _
    have hlen4 : (shardChunks (sha256Hex (utf8Bytes (normalizeKey key)))
        2 0 3 ++ [key]).length = 4 := by simp [hlen]
    rw [if_neg (by simp [dirLevels_new, hlen4])]
    have hgd : (shardChunks (sha256Hex (utf8Bytes (normalizeKey key)))
        2 0 3 ++ [key]).getD (NewFileCache b t).dirLevels "" = key := by
      have := getD_concat
        (shardChunks (sha256Hex (utf8Bytes (normalizeKey key))) 2 0 3) key
      rw [hlen] at this
      exact this
    rw [hgd]
  · rw [if_neg hj]
    rw [lastSeg_concat] at hj
    rw [if_neg hj]

theorem Get_snd_sub (b : Path) (t now : Int) (key : String) (fs : Fs) :
    (Get (NewFileCache b t) now key fs).2 = fs ∨
    (Get (NewFileCache b t) now key fs).2 =
      fsRemove fs (pathOfKey (NewFileCache b t) key) := by
  rcases h : fsGet fs (pathOfKey (NewFileCache b t) key) with _ | fd
  · left; simp [Get, getFilePath_ok, h]
  · rcases fd with it | _
    · by_cases hx : it.expireAt < now
      · right; simp [Get, getFilePath_ok, h, unmarshal, hx, purgeOnLoad_new]
      · left; simp [Get, getFilePath_ok, h, unmarshal, hx]
    · left; simp [Get, getFilePath_ok, h, unmarshal]

theorem Delete_snd_sub (b : Path) (t : Int) (key : String) (fs : Fs) :
    (Delete (NewFileCache b t) key fs).2 = fs ∨
    (Delete (NewFileCache b t) key fs).2 =
      fsRemove fs (pathOfKey (NewFileCache b t) key) := by
  rcases h : fsGet fs (pathOfKey (NewFileCache b t) key) with _ | fd
  · left; simp [Delete, getFilePath_ok, h]
  · right; simp [Delete, getFilePath_ok, h]

theorem Exists_snd_sub (b : Path) (t now : Int) (key : String) (fs : Fs) :
    (Exists (NewFileCache b t) now key fs).2 = fs ∨
    (Exists (NewFileCache b t) now key fs).2 =
      fsRemove fs (pathOfKey (NewFileCache b t) key) := by
  have hg := Get_snd_sub b t now key fs
  rcases h : fsGet fs (pathOfKey (NewFileCache b t) key) with _ | fd
  · left; simp [Exists, getFilePath_ok, h]
  · rcases hG : Get (NewFileCache b t) now key fs with ⟨r, fs2⟩
    rw [hG] at hg
    have h2 : (Exists (NewFileCache b t) now key fs).2 = fs2 := by
      rcases r with e | v
      · simp [Exists, getFilePath_ok, h, purgeOnLoad_new, hG]
      · simp [Exists, getFilePath_ok, h, purgeOnLoad_new, hG]
    rw [h2]
    exact hg

theorem storedAt_fsSet_other (b : Path) (t : Int) (k1 k2 : String)
    (fs : Fs) (d : FileData)
    (hne : pathOfKey (NewFileCache b t) k1 ≠ pathOfKey (NewFileCache b t) k2) :
    storedAt (NewFileCache b t)
      (fsSet fs (pathOfKey (NewFileCache b t) k1) d) k2 =
      storedAt (NewFileCache b t) fs k2 := by
  simp only [storedAt, getFilePath_ok]
  exact fsGet_fsSet_other _ _ _ _ hne

theorem storedAt_fsRemove_other (b : Path) (t : Int) (k1 k2 : String)
    (fs : Fs)
    (hne : pathOfKey (NewFileCache b t) k1 ≠ pathOfKey (NewFileCache b t) k2) :
    storedAt (NewFileCache b t)
      (fsRemove fs (pathOfKey (NewFileCache b t) k1)) k2 =
      storedAt (NewFileCache b t) fs k2 := by
  simp only [storedAt, getFilePath_ok]
  exact fsGet_fsRemove _ _ _ hne

/-! ### The digest renders as lowercase hexadecimal -/

def hexAlphabet : List Char := "0123456789abcdef".data

theorem mem_wordToBytes_lt (w x : Nat) (h : x ∈ wordToBytes w) : x < 256 := by
  simp only [wordToBytes, List.mem_cons, List.not_mem_nil, or_false] at h
  rcases h with h | h | h | h <;> subst h <;> exact Nat.mod_lt _ (by omega)

theorem mem_sha256Bytes_lt (msg : List Nat) (x : Nat)
    (h : x ∈ sha256Bytes msg) : x < 256 := by
  simp only [sha256Bytes] at h
  rw [List.mem_flatten] at h
  obtain ⟨l, hl, hx⟩ := h
  rw [List.mem_map] at hl
  obtain ⟨w, _, rfl⟩ := hl
  exact mem_wordToBytes_lt _ _ hx

theorem hexDigit_mem (n : Nat) (h : n < 16) : hexDigit n ∈ hexAlphabet := by
  have hall : ∀ m, m < 16 → hexDigit m ∈ hexAlphabet := by decide
  exact hall n h

theorem mem_bytesToHex (l : List Nat) (c : Char) (h : c ∈ bytesToHex l)
    (hb : ∀ x ∈ l, x < 256) : c ∈ hexAlphabet := by
  simp only [bytesToHex] at h
  rw [List.mem_flatten] at h
  obtain ⟨cs, hcs, hc⟩ := h
  rw [List.mem_map] at hcs
  obtain ⟨x, hx, rfl⟩ := hcs
  simp only [List.mem_cons, List.not_mem_nil, or_false] at hc
  rcases hc with rfl | rfl
  · exact hexDigit_mem _ (by have := hb x hx; omega)
  · exact hexDigit_mem _ (Nat.mod_lt _ (by omega))

theorem mem_sha256Hex (msg : List Nat) (c : Char) (h : c ∈ sha256Hex msg) :
    c ∈ hexAlphabet := by
  rw [sha256Hex] at h
  exact mem_bytesToHex _ _ h (fun x hx => mem_sha256Bytes_lt _ _ hx)

/-! ## The claims -/

/-- **C9**: path resolution fails with `InvalidConfiguration` exactly
when the shard parameters require more hex characters than the
64-character digest provides; with the constructor's fixed parameters
(3 levels of 2 characters) `getFilePath` succeeds for every key and no
public operation ever reports `InvalidConfiguration`. -/
theorem c9_invalid_config_unreachable (b : Path) (t ttl : Int)
    (lv pl : Nat) (pu : Bool) (key : String) :
    (getFilePath ⟨b, t, lv, pl, pu⟩ key = .error .invalidPrefixLength ↔
      64 < lv * pl)
    ∧ getFilePath (NewFileCache b t) key =
        .ok (pathOfKey (NewFileCache b t) key)
    ∧ (∀ n1 n2 data fs,
        SetWithTTL (NewFileCache b t) n1 n2 key data ttl fs ≠
          .error .invalidPrefixLength)
    ∧ (∀ now fs, (Get (NewFileCache b t) now key fs).1 ≠
        .error .invalidPrefixLength)
    ∧ (∀ fs, (Delete (NewFileCache b t) key fs).1 ≠
        .error .invalidPrefixLength) := by
  refine ⟨⟨?_, ?_⟩, getFilePath_ok b t key, ?_, ?_, ?_⟩
  · intro h
    by_contra hgt
    push_neg at hgt
    simp only [getFilePath] at h
    rw [shardLoop_ok _ _ lv 0 b
      (by rw [length_sha256Hex]; simpa using hgt)] at h
    simp at h
  · intro h
    have hlv : 0 < lv := by
      rcases Nat.eq_zero_or_pos lv with h0 | h0
      · subst h0; simp at h
      · exact h0
    simp only [getFilePath]
    rw [shardLoop_err _ _ lv 0 b hlv
      (by rw [length_sha256Hex]; simpa using h)]
  · intro n1 n2 data fs
    rw [SetWithTTL_ok]
    simp
  · intro now fs
    rcases h : fsGet fs (pathOfKey (NewFileCache b t) key) with _ | fd
    · simp [Get, getFilePath_ok, h]
    · rcases fd with it | _
      · by_cases hx : it.expireAt < now <;>
          simp [Get, getFilePath_ok, h, unmarshal, hx, purgeOnLoad_new]
      · simp [Get, getFilePath_ok, h, unmarshal]
  · intro fs
    rcases h : fsGet fs (pathOfKey (NewFileCache b t) key) with _ | fd
    · simp [Delete, getFilePath_ok, h]
    · simp [Delete, getFilePath_ok, h]

/-- **C4**: the resolved path is a pure function of the key: the base
directory, then three consecutive two-character chunks of the lowercase
hex SHA-256 digest of the normalized key, then the original key as
file name; normalization removes the two suffix strings anywhere in
the key, not only at the end. -/
theorem c4_path_structure (b : Path) (t : Int) (key : String)
    (h : isPlainName key = true) :
    getFilePath (NewFileCache b t) key =
      .ok (b ++
        [String.mk ((sha256Hex (utf8Bytes (normalizeKey key))).take 2),
         String.mk (((sha256Hex (utf8Bytes (normalizeKey key))).drop 2).take 2),
         String.mk (((sha256Hex (utf8Bytes (normalizeKey key))).drop 4).take 2),
         key])
    ∧ (∀ c ∈ sha256Hex (utf8Bytes (normalizeKey key)), c ∈ hexAlphabet)
    ∧ normalizeKey "a_info.jsonb" = "ab" := by
  refine ⟨?_, fun c hc => mem_sha256Hex _ c hc, by decide⟩
  rw [getFilePath_eq, joinKey_plain _ _ h]
  simp [shardChunks, List.append_assoc]

/-- Witness for C4 at a concrete key. -/
theorem c4_path_structure_witness :
    isPlainName "k" = true
    ∧ getFilePath (NewFileCache ["r"] 60) "k" =
        .ok (["r"] ++
          [String.mk ((sha256Hex (utf8Bytes (normalizeKey "k"))).take 2),
           String.mk
             (((sha256Hex (utf8Bytes (normalizeKey "k"))).drop 2).take 2),
           String.mk
             (((sha256Hex (utf8Bytes (normalizeKey "k"))).drop 4).take 2),
           "k"]) :=
  ⟨by decide, (c4_path_structure ["r"] 60 "k" (by decide)).1⟩

/-- **C1**: a `SetWithTTL` with positive TTL followed by a `Get` before
the expiration instant returns exactly the stored payload,
byte-for-byte, for every key and every payload. -/
theorem c1_roundtrip (b : Path) (t n1 n2 now ttl : Int) (key : String)
    (data : List Nat) (fs : Fs) (hpos : 0 < ttl)
    (hfresh : now ≤ n1 + ttl) :
    ∃ fs', SetWithTTL (NewFileCache b t) n1 n2 key data ttl fs = .ok fs'
      ∧ (Get (NewFileCache b t) now key fs').1 = .ok data := by
  refine ⟨_, SetWithTTL_ok b t n1 n2 key data ttl fs, ?_⟩
  have hst := storedAt_fsSet_same b t key fs
    (.record ⟨normalizeKey key, data, n1 + ttl, n2⟩)
  rw [Get_live b t now key _ _ hst (by show ¬ (n1 + ttl < now); omega)]

/-- Witness for C1 at a concrete key, payload and times. -/
theorem c1_roundtrip_witness :
    (0 : Int) < 10 ∧ (3 : Int) ≤ 0 + 10 ∧
    ∃ fs', SetWithTTL (NewFileCache [] 60) 0 1 "k" [7, 0, 255] 10 [] =
        .ok fs'
      ∧ (Get (NewFileCache [] 60) 3 "k" fs').1 = .ok [7, 0, 255] :=
  ⟨by decide, by decide,
    c1_roundtrip [] 60 0 1 3 10 "k" [7, 0, 255] [] (by decide) (by decide)⟩

/-- **C10**: distinct keys without path separators and other than `"."`
and `".."` resolve to distinct paths, and `SetWithTTL`, `Delete`, and
the purge-on-read of `Get` and `Exists` on one key never change what is
stored for the other. -/
theorem c10_distinct_keys_frame (b : Path) (t : Int) (k1 k2 : String)
    (hne : k1 ≠ k2)
    (h1s : ¬ k1.data.contains '/' = true)
    (h2s : ¬ k2.data.contains '/' = true)
    (h1a : k1 ≠ ".") (h1b : k1 ≠ "..") (h2a : k2 ≠ ".") (h2b : k2 ≠ "..") :
    pathOfKey (NewFileCache b t) k1 ≠ pathOfKey (NewFileCache b t) k2
    ∧ (∀ n1 n2 data ttl fs fs',
        SetWithTTL (NewFileCache b t) n1 n2 k1 data ttl fs = .ok fs' →
        storedAt (NewFileCache b t) fs' k2 =
          storedAt (NewFileCache b t) fs k2)
    ∧ (∀ fs,
        storedAt (NewFileCache b t) (Delete (NewFileCache b t) k1 fs).2 k2 =
          storedAt (NewFileCache b t) fs k2)
    ∧ (∀ now fs,
        storedAt (NewFileCache b t) (Get (NewFileCache b t) now k1 fs).2 k2 =
          storedAt (NewFileCache b t) fs k2)
    ∧ (∀ now fs,
        storedAt (NewFileCache b t)
          (Exists (NewFileCache b t) now k1 fs).2 k2 =
          storedAt (NewFileCache b t) fs k2) := by
  have hnep := pathOfKey_injective b t k1 k2 hne h1s h2s h1a h1b h2a h2b
  refine ⟨hnep, ?_, ?_, ?_, ?_⟩
  · intro n1 n2 data ttl fs fs' hset
    rw [SetWithTTL_ok] at hset
    injection hset with hset
    subst hset
    exact storedAt_fsSet_other _ _ _ _ _ _ hnep
  · intro fs
    rcases Delete_snd_sub b t k1 fs with h | h <;> rw [h]
    exact storedAt_fsRemove_other _ _ _ _ _ hnep
  · intro now fs
    rcases Get_snd_sub b t now k1 fs with h | h <;> rw [h]
    exact storedAt_fsRemove_other _ _ _ _ _ hnep
  · intro now fs
    rcases Exists_snd_sub b t now k1 fs with h | h <;> rw [h]
    exact storedAt_fsRemove_other _ _ _ _ _ hnep

/-- Witness for C10 at two concrete distinct keys. -/
theorem c10_distinct_keys_frame_witness :
    "a" ≠ "b"
    ∧ pathOfKey (NewFileCache ["r"] 60) "a" ≠
        pathOfKey (NewFileCache ["r"] 60) "b" :=
  ⟨by decide,
    (c10_distinct_keys_frame ["r"] 60 "a" "b" (by decide) (by decide)
      (by decide) (by decide) (by decide) (by decide) (by decide)).1⟩

/-- **C5**: `Get` fails with `NotFound` when the file is absent, with
`CorruptRecord` when it does not deserialize, with `Expired` (deleting
the file, since purge-on-read is fixed on) when the current time is
strictly past `expiresAt`, and otherwise returns the payload; a record
with TTL `d` is retrievable at `createdAt + d - ε` and expired at
`createdAt + d + ε`. -/
theorem c5_get_error_taxonomy (b : Path) (t now : Int) (key : String)
    (fs : Fs) :
    (storedAt (NewFileCache b t) fs key = none →
      Get (NewFileCache b t) now key fs = (.error .notFound, fs))
    ∧ (storedAt (NewFileCache b t) fs key = some .corrupt →
      Get (NewFileCache b t) now key fs = (.error .parseFailed, fs))
    ∧ (∀ it, storedAt (NewFileCache b t) fs key = some (.record it) →
        it.expireAt < now →
        Get (NewFileCache b t) now key fs =
          (.error .expired, fsRemove fs (pathOfKey (NewFileCache b t) key)))
    ∧ (∀ it, storedAt (NewFileCache b t) fs key = some (.record it) →
        ¬ it.expireAt < now →
        Get (NewFileCache b t) now key fs = (.ok it.data, fs))
    ∧ (∀ d eps tw data fs', 0 < eps → 0 < d →
        SetWithTTL (NewFileCache b t) tw tw key data d fs = .ok fs' →
        (Get (NewFileCache b t) (tw + d - eps) key fs').1 = .ok data
        ∧ (Get (NewFileCache b t) (tw + d + eps) key fs').1 =
            .error .expired) := by
  refine ⟨Get_notFound b t now key fs, Get_corrupt b t now key fs,
    fun it h hx => Get_expired b t now key fs it h hx,
    fun it h hx => Get_live b t now key fs it h hx, ?_⟩
  intro d eps tw data fs' heps hd hset
  rw [SetWithTTL_ok] at hset
  injection hset with hset
  subst hset
  have hst := storedAt_fsSet_same b t key fs
    (.record ⟨normalizeKey key, data, tw + d, tw⟩)
  constructor
  · rw [Get_live b t (tw + d - eps) key _ _ hst
      (by show ¬ (tw + d < tw + d - eps); omega)]
  · rw [Get_expired b t (tw + d + eps) key _ _ hst
      (by show tw + d < tw + d + eps; omega)]

/-- Witness for C5: a missing key reports `NotFound`, and a concrete
record with TTL 10 is readable one tick before expiry and expired one
tick after. -/
theorem c5_get_error_taxonomy_witness :
    Get (NewFileCache ["r"] 60) 0 "k" [] = (.error .notFound, [])
    ∧ ∃ fs', SetWithTTL (NewFileCache ["r"] 60) 5 5 "k" [9] 10 [] = .ok fs'
      ∧ (Get (NewFileCache ["r"] 60) (5 + 10 - 1) "k" fs').1 = .ok [9]
      ∧ (Get (NewFileCache ["r"] 60) (5 + 10 + 1) "k" fs').1 =
          .error .expired := by
  obtain ⟨h1, h2⟩ := (c5_get_error_taxonomy ["r"] 60 0 "k" []).2.2.2.2
    10 1 5 [9] _ (by decide) (by decide)
    (SetWithTTL_ok ["r"] 60 5 5 "k" [9] 10 [])
  exact ⟨(c5_get_error_taxonomy ["r"] 60 0 "k" []).1
      (by simp only [storedAt, getFilePath_ok]; rfl),
    _, SetWithTTL_ok ["r"] 60 5 5 "k" [9] 10 [], h1, h2⟩

/-- **C6**: `Exists` returns a bare boolean: path-resolution failure,
absence of the file and every `Get` failure yield `false`, and (with
purge-on-read fixed on) it returns `true` exactly when the file exists
and the delegated `Get` succeeds. -/
theorem c6_exists_never_errors (b : Path) (t now : Int) (key : String)
    (fs : Fs) :
    (∀ (fc : FileCache) e, getFilePath fc key = .error e →
      Exists fc now key fs = (false, fs))
    ∧ (storedAt (NewFileCache b t) fs key = none →
      Exists (NewFileCache b t) now key fs = (false, fs))
    ∧ ((Exists (NewFileCache b t) now key fs).1 = true ↔
        (storedAt (NewFileCache b t) fs key).isSome = true
        ∧ isOkRes (Get (NewFileCache b t) now key fs).1 = true) := by
  refine ⟨?_, ?_, ?_⟩
  · intro fc e h
    simp [Exists, h]
  · intro h
    simp only [storedAt, getFilePath_ok] at h
    simp [Exists, getFilePath_ok, h]
  · rcases h : fsGet fs (pathOfKey (NewFileCache b t) key) with _ | fd
    · simp [Exists, getFilePath_ok, h, storedAt]
    · rcases fd with it | _
      · by_cases hx : it.expireAt < now
        · have hg := Get_expired b t now key fs it
            (by simp only [storedAt, getFilePath_ok]; exact h) hx
          simp [Exists, getFilePath_ok, h, purgeOnLoad_new, hg, storedAt,
            isOkRes]
        · have hg := Get_live b t now key fs it
            (by simp only [storedAt, getFilePath_ok]; exact h) hx
          simp [Exists, getFilePath_ok, h, purgeOnLoad_new, hg, storedAt,
            isOkRes]
      · have hg := Get_corrupt b t now key fs
          (by simp only [storedAt, getFilePath_ok]; exact h)
        simp [Exists, getFilePath_ok, h, purgeOnLoad_new, hg, storedAt,
          isOkRes]

/-- Witness for C6: a key absent from an empty filesystem yields
`false`, matching the iff. -/
theorem c6_exists_never_errors_witness :
    Exists (NewFileCache ["r"] 60) 0 "k" [] = (false, []) :=
  (c6_exists_never_errors ["r"] 60 0 "k" []).2.1
    (by simp only [storedAt, getFilePath_ok]; rfl)

/-- **C7 counterexample**: the claim `expiresAt = createdAt + ttl`
fails on the code: `SetWithTTL` reads the clock once for `expireAt`
(line 57) and again for `Created` (line 66); with clock reads 0 and 1
and TTL 10 the stored record has `expireAt = 10` but
`created + ttl = 11`. -/
theorem c7_counterexample :
    ∃ fs' it,
      SetWithTTL (NewFileCache ["r"] 60) 0 1 "k" [] 10 [] = .ok fs'
      ∧ storedItem (NewFileCache ["r"] 60) fs' "k" = some it
      ∧ ¬ it.expireAt = it.created + 10 := by
  refine ⟨_, ⟨normalizeKey "k", [], 0 + 10, 1⟩,
    SetWithTTL_ok ["r"] 60 0 1 "k" [] 10 [], ?_, by decide⟩
  exact (storedItem_eq _ _ _ _).mpr (storedAt_fsSet_same ["r"] 60 "k" [] _)

/-- **C7 amended**: the stored record satisfies
`expireAt = now₁ + ttl` for the first clock read `now₁`, and
`created = now₂` for the second; with a monotone clock
`expireAt ≤ created + ttl`, with equality exactly when the two reads
coincide — and every stored record carries an expiration timestamp. -/
theorem c7_expiry_invariant_amended (b : Path) (t n1 n2 : Int)
    (key : String) (data : List Nat) (ttl : Int) (fs : Fs)
    (hmono : n1 ≤ n2) :
    ∃ fs' it,
      SetWithTTL (NewFileCache b t) n1 n2 key data ttl fs = .ok fs'
      ∧ storedItem (NewFileCache b t) fs' key = some it
      ∧ it.expireAt = n1 + ttl
      ∧ it.created = n2
      ∧ it.expireAt ≤ it.created + ttl
      ∧ (n1 = n2 → it.expireAt = it.created + ttl) := by
  refine ⟨_, ⟨normalizeKey key, data, n1 + ttl, n2⟩,
    SetWithTTL_ok b t n1 n2 key data ttl fs,
    (storedItem_eq _ _ _ _).mpr (storedAt_fsSet_same b t key fs _),
    rfl, rfl, by show n1 + ttl ≤ n2 + ttl; omega,
    fun h => by show n1 + ttl = n2 + ttl; omega⟩

/-- Witness for the amended C7 at concrete clock reads. -/
theorem c7_expiry_invariant_amended_witness :
    (0 : Int) ≤ 0 ∧
    ∃ fs' it,
      SetWithTTL (NewFileCache ["r"] 60) 0 0 "k" [1] 10 [] = .ok fs'
      ∧ storedItem (NewFileCache ["r"] 60) fs' "k" = some it
      ∧ it.expireAt = 0 + 10
      ∧ it.created = 0
      ∧ it.expireAt ≤ it.created + 10
      ∧ (0 = (0 : Int) → it.expireAt = it.created + 10) :=
  ⟨by decide, c7_expiry_invariant_amended ["r"] 60 0 0 "k" [1] 10 []
    (by decide)⟩

/-- **C8**: `Set("foo_info.json", P)` then `Get("foo_info.json")`
round-trips P; the record's `key` field holds the normalized `"foo"`
while the file-name segment of the path is the original
`"foo_info.json"`. -/
theorem c8_normalization_quirk (b : Path) (t n1 n2 now ttl : Int)
    (data : List Nat) (fs : Fs) (hfresh : now ≤ n1 + ttl) :
    ∃ fs' p,
      SetWithTTL (NewFileCache b t) n1 n2 "foo_info.json" data ttl fs =
        .ok fs'
      ∧ getFilePath (NewFileCache b t) "foo_info.json" = .ok p
      ∧ p.getLast? = some "foo_info.json"
      ∧ storedItem (NewFileCache b t) fs' "foo_info.json" =
          some ⟨"foo", data, n1 + ttl, n2⟩
      ∧ (Get (NewFileCache b t) now "foo_info.json" fs').1 = .ok data := by
  have hnorm : normalizeKey "foo_info.json" = "foo" := by decide
  refine ⟨_, _, SetWithTTL_ok b t n1 n2 "foo_info.json" data ttl fs,
    getFilePath_ok b t "foo_info.json",
    pathOfKey_last_plain b t _ (by decide), ?_, ?_⟩
  · have hsi := (storedItem_eq _ _ _ _).mpr
      (storedAt_fsSet_same b t "foo_info.json" fs
        (.record ⟨normalizeKey "foo_info.json", data, n1 + ttl, n2⟩))
    rw [hnorm] at hsi
    exact hsi
  · have hst := storedAt_fsSet_same b t "foo_info.json" fs
      (.record ⟨normalizeKey "foo_info.json", data, n1 + ttl, n2⟩)
    rw [Get_live b t now _ _ _ hst (by show ¬ (n1 + ttl < now); omega)]

/-- Witness for C8 at concrete times and payload. -/
theorem c8_normalization_quirk_witness :
    (3 : Int) ≤ 0 + 10 ∧
    ∃ fs' p,
      SetWithTTL (NewFileCache ["r"] 60) 0 1 "foo_info.json" [5] 10 [] =
        .ok fs'
      ∧ getFilePath (NewFileCache ["r"] 60) "foo_info.json" = .ok p
      ∧ p.getLast? = some "foo_info.json"
      ∧ storedItem (NewFileCache ["r"] 60) fs' "foo_info.json" =
          some ⟨"foo", [5], 0 + 10, 1⟩
      ∧ (Get (NewFileCache ["r"] 60) 3 "foo_info.json" fs').1 = .ok [5] :=
  ⟨by decide, c8_normalization_quirk ["r"] 60 0 1 3 10 [5] [] (by decide)⟩

/-! ### Further helpers for the walk-based operations -/

theorem mem_fsRemove (fs : Fs) (p : Path) (e : Path × FileData)
    (h : e ∈ fsRemove fs p) : e ∈ fs := by
  induction fs with
  | nil => simpa [fsRemove] using h
  | cons e2 rest ih =>
      rw [fsRemove] at h
      split at h
      · exact List.mem_cons_of_mem _ (ih h)
      · rcases List.mem_cons.mp h with rfl | h
        · exact List.mem_cons_self _ _
        · exact List.mem_cons_of_mem _ (ih h)

theorem mem_fsSet (fs : Fs) (p : Path) (d : FileData) (e : Path × FileData)
    (h : e ∈ fsSet fs p d) : e = (p, d) ∨ e ∈ fs := by
  rw [fsSet] at h
  rcases List.mem_cons.mp h with rfl | h
  · exact Or.inl rfl
  · exact Or.inr (mem_fsRemove _ _ _ h)

theorem fsSet_three (p1 p2 p3 : Path) (d1 d2 d3 : FileData)
    (h12 : ¬ p1 = p2) (h13 : ¬ p1 = p3) (h23 : ¬ p2 = p3) :
    fsSet (fsSet (fsSet [] p1 d1) p2 d2) p3 d3 =
      [(p3, d3), (p2, d2), (p1, d1)] := by
  simp [fsSet, fsRemove, h12, h13, h23]

theorem pathOfKey_inj_plain (b : Path) (t : Int) (k1 k2 : String)
    (h1 : isPlainName k1 = true) (h2 : isPlainName k2 = true)
    (hne : k1 ≠ k2) :
    ¬ pathOfKey (NewFileCache b t) k1 = pathOfKey (NewFileCache b t) k2 := by
  simp only [isPlainName, Bool.and_eq_true, bne_iff_ne,
    Bool.not_eq_true'] at h1 h2
  exact pathOfKey_injective b t k1 k2 hne (by simpa using h1.1.1.1)
    (by simpa using h2.1.1.1) h1.1.2 h1.2 h2.1.2 h2.2

theorem keyJsonExt_iff (k : String) :
    keyJsonExt k = true ↔ extOf k.data = jsonExt := by
  simp [keyJsonExt]

/-- **C3 counterexample**: one record whose key has no `.json`
extension, already expired (TTL −1, written at clock 0, swept at
clock 0): `PurgeExpired` does not remove its file — the walk skips
files without the `.json` extension — refuting "removes the files of
all N expired records". -/
theorem c3_counterexample :
    ∃ fs1 it,
      SetWithTTL (NewFileCache ["r"] 60) 0 0 "e" [1] (-1) [] = .ok fs1
      ∧ storedItem (NewFileCache ["r"] 60)
          (PurgeExpired (NewFileCache ["r"] 60) 0 fs1) "e" = some it
      ∧ it.expireAt < 0 := by
  refine ⟨_, ⟨normalizeKey "e", [1], 0 + -1, 0⟩,
    SetWithTTL_ok ["r"] 60 0 0 "e" [1] (-1) [], ?_, by decide⟩
  refine (storedItem_eq _ _ _ _).mpr ?_
  refine storedAt_purge_keep ["r"] 60 0 "e" _ _
    (storedAt_fsSet_same ["r"] 60 "e" [] _) ?_
  exact purgeKeep_plain_notJson ["r"] 60 0 "e" _ (by decide) (by decide)

/-- **C3 amended**: `PurgeExpired` removes the file of an expired
record only when its file name carries the `.json` extension (the walk
skips other files); in every case an expired record is unretrievable
after the sweep — `NotFound` if its file was removed, `Expired`
otherwise — and live records are left untouched and retrievable. -/
theorem c3_purge_sweep_amended (b : Path) (t now : Int) (key : String)
    (fs : Fs) (it : CacheItem)
    (hplain : isPlainName key = true) (hnd : pathsNodup fs)
    (hst : storedItem (NewFileCache b t) fs key = some it) :
    (it.expireAt < now → keyJsonExt key = true →
      storedAt (NewFileCache b t)
          (PurgeExpired (NewFileCache b t) now fs) key = none
      ∧ (Get (NewFileCache b t) now key
          (PurgeExpired (NewFileCache b t) now fs)).1 = .error .notFound)
    ∧ (it.expireAt < now →
      isOkRes (Get (NewFileCache b t) now key
        (PurgeExpired (NewFileCache b t) now fs)).1 = false)
    ∧ (¬ it.expireAt < now →
      storedAt (NewFileCache b t)
          (PurgeExpired (NewFileCache b t) now fs) key =
          some (.record it)
      ∧ (Get (NewFileCache b t) now key
          (PurgeExpired (NewFileCache b t) now fs)).1 = .ok it.data) := by
  rw [storedItem_eq] at hst
  refine ⟨?_, ?_, ?_⟩
  · intro hx hj
    have hkeep : purgeKeep (NewFileCache b t) now
        (pathOfKey (NewFileCache b t) key, .record it) = false := by
      rw [purgeKeep_plain_record b t now key it hplain
        ((keyJsonExt_iff key).mp hj), if_pos hx]
    have hnone := storedAt_purge_drop b t now key fs _ hnd hst hkeep
    exact ⟨hnone, by rw [Get_notFound _ _ _ _ _ hnone]⟩
  · intro hx
    by_cases hj : extOf key.data = jsonExt
    · have hkeep : purgeKeep (NewFileCache b t) now
          (pathOfKey (NewFileCache b t) key, .record it) = false := by
        rw [purgeKeep_plain_record b t now key it hplain hj, if_pos hx]
      have hnone := storedAt_purge_drop b t now key fs _ hnd hst hkeep
      rw [Get_notFound _ _ _ _ _ hnone]
      simp [isOkRes]
    · have hkeep := purgeKeep_plain_notJson b t now key (.record it)
        hplain hj
      have hsame := storedAt_purge_keep b t now key fs _ hst hkeep
      rw [Get_expired _ _ _ _ _ _ hsame hx]
      simp [isOkRes]
  · intro hx
    have hkeep : purgeKeep (NewFileCache b t) now
        (pathOfKey (NewFileCache b t) key, .record it) = true := by
      by_cases hj : extOf key.data = jsonExt
      · rw [purgeKeep_plain_record b t now key it hplain hj, if_neg hx]
      · exact purgeKeep_plain_notJson b t now key _ hplain hj
    have hsame := storedAt_purge_keep b t now key fs _ hst hkeep
    exact ⟨hsame, by rw [Get_live _ _ _ _ _ _ hsame hx]⟩

/-- Witness for the amended C3: a single live `.json` record survives
the sweep and stays retrievable. -/
theorem c3_purge_sweep_amended_witness :
    isPlainName "a.json" = true
    ∧ storedAt (NewFileCache ["r"] 60)
        (PurgeExpired (NewFileCache ["r"] 60) 3
          (fsSet [] (pathOfKey (NewFileCache ["r"] 60) "a.json")
            (.record ⟨normalizeKey "a.json", [2], 5, 0⟩))) "a.json" =
        some (.record ⟨normalizeKey "a.json", [2], 5, 0⟩)
    ∧ (Get (NewFileCache ["r"] 60) 3 "a.json"
        (PurgeExpired (NewFileCache ["r"] 60) 3
          (fsSet [] (pathOfKey (NewFileCache ["r"] 60) "a.json")
            (.record ⟨normalizeKey "a.json", [2], 5, 0⟩)))).1 =
        .ok [2] := by
  have h := (c3_purge_sweep_amended ["r"] 60 3 "a.json" _
    ⟨normalizeKey "a.json", [2], 5, 0⟩ (by decide)
    (by simp [pathsNodup, fsSet, fsRemove])
    ((storedItem_eq _ _ _ _).mpr
      (storedAt_fsSet_same ["r"] 60 "a.json" [] _))).2.2 (by decide)
  exact ⟨by decide, h.1, h.2⟩

/-- **C2 counterexample**: the keys `"a"`, `"b"`, `"c"` have pairwise
distinct two-character shard prefixes, yet after writing all three,
`ListKeys` returns the empty list — the walk skips every file whose
name lacks the `.json` extension — refuting "returns a set equal to
{A, B, C}". -/
theorem c2_counterexample :
    ∃ fs1 fs2 fs3,
      SetWithTTL (NewFileCache ["r"] 60) 0 0 "a" [1] 10 [] = .ok fs1
      ∧ SetWithTTL (NewFileCache ["r"] 60) 0 0 "b" [2] 10 fs1 = .ok fs2
      ∧ SetWithTTL (NewFileCache ["r"] 60) 0 0 "c" [3] 10 fs2 = .ok fs3
      ∧ (sha256Hex (utf8Bytes (normalizeKey "a"))).take 2 ≠
          (sha256Hex (utf8Bytes (normalizeKey "b"))).take 2
      ∧ (sha256Hex (utf8Bytes (normalizeKey "a"))).take 2 ≠
          (sha256Hex (utf8Bytes (normalizeKey "c"))).take 2
      ∧ (sha256Hex (utf8Bytes (normalizeKey "b"))).take 2 ≠
          (sha256Hex (utf8Bytes (normalizeKey "c"))).take 2
      ∧ ListKeys (NewFileCache ["r"] 60) fs3 = [] := by
  refine ⟨_, _, _, SetWithTTL_ok ["r"] 60 0 0 "a" [1] 10 [],
    SetWithTTL_ok ["r"] 60 0 0 "b" [2] 10 _,
    SetWithTTL_ok ["r"] 60 0 0 "c" [3] 10 _,
    by decide, by decide, by decide, ?_⟩
  rw [ListKeys, List.filterMap_eq_nil_iff]
  intro e he
  rcases mem_fsSet _ _ _ _ he with rfl | he
  · rw [listKeyOf_plain ["r"] 60 "c" _ (by decide), if_neg (by decide)]
  rcases mem_fsSet _ _ _ _ he with rfl | he
  · rw [listKeyOf_plain ["r"] 60 "b" _ (by decide), if_neg (by decide)]
  rcases mem_fsSet _ _ _ _ he with rfl | he
  · rw [listKeyOf_plain ["r"] 60 "a" _ (by decide), if_neg (by decide)]
  · simp at he

/-- **C2 amended**: `ListKeys` yields, for each file at depth
`shardLevels + 1` whose name has the `.json` extension, the file name
with the `.json` suffix trimmed, and skips all other files: writing
three distinct plain keys into an empty cache lists their trimmed
names when all three end in `.json`, and lists nothing when none
does. -/
theorem c2_listkeys_amended (b : Path) (t n1 n2 ttl : Int)
    (A B C : String) (dA dB dC : List Nat)
    (hA : isPlainName A = true) (hB : isPlainName B = true)
    (hC : isPlainName C = true)
    (hAB : A ≠ B) (hAC : A ≠ C) (hBC : B ≠ C) :
    (keyJsonExt A = true → keyJsonExt B = true → keyJsonExt C = true →
      ∃ fs1 fs2 fs3,
        SetWithTTL (NewFileCache b t) n1 n2 A dA ttl [] = .ok fs1
        ∧ SetWithTTL (NewFileCache b t) n1 n2 B dB ttl fs1 = .ok fs2
        ∧ SetWithTTL (NewFileCache b t) n1 n2 C dC ttl fs2 = .ok fs3
        ∧ ListKeys (NewFileCache b t) fs3 =
            [String.mk (trimSuffix C.data jsonExt),
             String.mk (trimSuffix B.data jsonExt),
             String.mk (trimSuffix A.data jsonExt)])
    ∧ (keyJsonExt A = false → keyJsonExt B = false → keyJsonExt C = false →
      ∃ fs1 fs2 fs3,
        SetWithTTL (NewFileCache b t) n1 n2 A dA ttl [] = .ok fs1
        ∧ SetWithTTL (NewFileCache b t) n1 n2 B dB ttl fs1 = .ok fs2
        ∧ SetWithTTL (NewFileCache b t) n1 n2 C dC ttl fs2 = .ok fs3
        ∧ ListKeys (NewFileCache b t) fs3 = []) := by
  have hpAB := pathOfKey_inj_plain b t A B hA hB hAB
  have hpAC := pathOfKey_inj_plain b t A C hA hC hAC
  have hpBC := pathOfKey_inj_plain b t B C hB hC hBC
  have h3 := fsSet_three (pathOfKey (NewFileCache b t) A)
    (pathOfKey (NewFileCache b t) B) (pathOfKey (NewFileCache b t) C)
    (.record ⟨normalizeKey A, dA, n1 + ttl, n2⟩)
    (.record ⟨normalizeKey B, dB, n1 + ttl, n2⟩)
    (.record ⟨normalizeKey C, dC, n1 + ttl, n2⟩) hpAB hpAC hpBC
  constructor
  · intro hjA hjB hjC
    refine ⟨_, _, _, SetWithTTL_ok b t n1 n2 A dA ttl [],
      SetWithTTL_ok b t n1 n2 B dB ttl _,
      SetWithTTL_ok b t n1 n2 C dC ttl _, ?_⟩
    rw [h3]
    have eA := listKeyOf_plain b t A
      (.record ⟨normalizeKey A, dA, n1 + ttl, n2⟩) hA
    have eB := listKeyOf_plain b t B
      (.record ⟨normalizeKey B, dB, n1 + ttl, n2⟩) hB
    have eC := listKeyOf_plain b t C
      (.record ⟨normalizeKey C, dC, n1 + ttl, n2⟩) hC
    rw [if_pos ((keyJsonExt_iff A).mp hjA)] at eA
    rw [if_pos ((keyJsonExt_iff B).mp hjB)] at eB
    rw [if_pos ((keyJsonExt_iff C).mp hjC)] at eC
    simp [ListKeys, eA, eB, eC]
  · intro hjA hjB hjC
    refine ⟨_, _, _, SetWithTTL_ok b t n1 n2 A dA ttl [],
      SetWithTTL_ok b t n1 n2 B dB ttl _,
      SetWithTTL_ok b t n1 n2 C dC ttl _, ?_⟩
    rw [h3]
    have eA := listKeyOf_plain b t A
      (.record ⟨normalizeKey A, dA, n1 + ttl, n2⟩) hA
    have eB := listKeyOf_plain b t B
      (.record ⟨normalizeKey B, dB, n1 + ttl, n2⟩) hB
    have eC := listKeyOf_plain b t C
      (.record ⟨normalizeKey C, dC, n1 + ttl, n2⟩) hC
    rw [if_neg (fun hc =>
      absurd ((keyJsonExt_iff A).mpr hc) (by simp [hjA]))] at eA
    rw [if_neg (fun hc =>
      absurd ((keyJsonExt_iff B).mpr hc) (by simp [hjB]))] at eB
    rw [if_neg (fun hc =>
      absurd ((keyJsonExt_iff C).mpr hc) (by simp [hjC]))] at eC
    simp [ListKeys, eA, eB, eC]

/-- Witness for the amended C2 in both scenarios: three `.json` keys
are listed with the suffix trimmed; three bare keys are not listed. -/
theorem c2_listkeys_amended_witness :
    (∃ fs1 fs2 fs3,
      SetWithTTL (NewFileCache ["r"] 60) 0 0 "a.json" [1] 10 [] = .ok fs1
      ∧ SetWithTTL (NewFileCache ["r"] 60) 0 0 "b.json" [2] 10 fs1 = .ok fs2
      ∧ SetWithTTL (NewFileCache ["r"] 60) 0 0 "c.json" [3] 10 fs2 = .ok fs3
      ∧ ListKeys (NewFileCache ["r"] 60) fs3 =
          [String.mk (trimSuffix "c.json".data jsonExt),
           String.mk (trimSuffix "b.json".data jsonExt),
           String.mk (trimSuffix "a.json".data jsonExt)])
    ∧ (∃ fs1 fs2 fs3,
      SetWithTTL (NewFileCache ["r"] 60) 0 0 "x" [1] 10 [] = .ok fs1
      ∧ SetWithTTL (NewFileCache ["r"] 60) 0 0 "y" [2] 10 fs1 = .ok fs2
      ∧ SetWithTTL (NewFileCache ["r"] 60) 0 0 "z" [3] 10 fs2 = .ok fs3
      ∧ ListKeys (NewFileCache ["r"] 60) fs3 = []) :=
  ⟨(c2_listkeys_amended ["r"] 60 0 0 10 "a.json" "b.json" "c.json"
      [1] [2] [3] (by decide) (by decide) (by decide) (by decide)
      (by decide) (by decide)).1 (by decide) (by decide) (by decide),
   (c2_listkeys_amended ["r"] 60 0 0 10 "x" "y" "z"
      [1] [2] [3] (by decide) (by decide) (by decide) (by decide)
      (by decide) (by decide)).2 (by decide) (by decide) (by decide)⟩

end PieCache
